import Mathlib

/-!
Verification of the semver-parser repository (src/src/version.rs).

The program is embedded shallowly over byte lists (`List Nat`, each element a
byte value).  `version.rs` itself provides the `Version` / `Identifier` data
types, the `parse` driver, the `Display` formatters and the derived `Ord`
instances; the helper recognizers it imports (`recognize` patterns,
`common::numeric_identifier`, `common::parse_optional_meta`) are not part of
the sources available here and are modelled from the specification, as marked
on each definition.
-/

namespace Semver

/-- Identifier data type from version.rs: a pre-release or build component,
either solely numeric (`Numeric`, a u64 value) or alphanumeric
(`AlphaNumeric`, the payload string kept as its byte list). -/
inductive Identifier where
  | Numeric : Nat → Identifier
  | AlphaNumeric : List Nat → Identifier
deriving DecidableEq

/-- Version struct from version.rs: major/minor/patch are u64 values,
`pre` and `build` are the two identifier sequences. -/
structure Version where
  major : Nat
  minor : Nat
  patch : Nat
  pre : List Identifier
  build : List Identifier
deriving DecidableEq

/-- Error values of `parse`.  version.rs returns `Err(String)`; the messages
are fixed texts, embedded here as one constructor per message, with the
"Extra junk after valid version: " message carrying the unconsumed remainder
that version.rs appends to it. -/
inductive ParseError where
  | majorIdentifier
  | expectedDot
  | minorIdentifier
  | patchIdentifier
  | emptyMetaSegment
  | extraJunk : List Nat → ParseError
deriving DecidableEq

/-- ASCII whitespace byte, the byte-level restriction of Rust
`char::is_whitespace` used by `str::trim` (tab, LF, VT, FF, CR, space). -/
def isWhitespaceByte (b : Nat) : Bool := b == 32 || (9 ≤ b && b ≤ 13)

/-- Embedding of `str::trim` from the call `version.trim()` in version.rs:
drop whitespace bytes from both ends. -/
def rustTrim (s : List Nat) : List Nat :=
  ((s.dropWhile isWhitespaceByte).reverse.dropWhile isWhitespaceByte).reverse

/-- ASCII decimal digit byte. -/
def isDigitByte (b : Nat) : Bool := 48 ≤ b && b ≤ 57

/-- Byte in the identifier character set of the spec, `[0-9A-Za-z-]`. -/
def isAlphanumByte (b : Nat) : Bool :=
  isDigitByte b || (65 ≤ b && b ≤ 90) || (97 ≤ b && b ≤ 122) || b == 45

/-- Decimal value of a digit-byte run, as `u64::from_str` computes it
(big-endian fold). -/
def digitsVal (l : List Nat) : Nat :=
  l.foldl (fun acc b => acc * 10 + (b - 48)) 0

/-- Modelled from the spec: the `recognize` crate's literal-byte pattern
(`b'.'.p(...)` in version.rs), missing from the sources.  Matches one byte
`c` at the head of the input and reports one byte consumed (spec section
4.1). -/
def litByte (c : Nat) (s : List Nat) : Option Nat :=
  match s with
  | b :: _ => if b = c then some 1 else none
  | [] => none

/-- Modelled from the spec: `common::numeric_identifier`, missing from the
sources.  Per spec section 4.2: take the maximal leading digit run; reject an
empty run, a multi-byte run with a leading zero, and a value overflowing
64 bits; otherwise yield the value and the consumed length. -/
def numeric_identifier (s : List Nat) : Option (Nat × Nat) :=
  let run := s.takeWhile isDigitByte
  if run = [] then none
  else if 1 < run.length ∧ run.head? = some 48 then none
  else if 2 ^ 64 ≤ digitsVal run then none
  else some (digitsVal run, run.length)

/-- Modelled from the spec: classification of one metadata component, part of
the metadata list parsing in `common`, missing from the sources.  Per spec
section 4.3: take the maximal leading `[0-9A-Za-z-]` run; an empty run is an
error; then try the numeric recognizer on that bounded token, falling back to
`AlphaNumeric` on the full matched text when it does not accept the whole
token. -/
def parse_id (s : List Nat) : Except ParseError (Identifier × Nat) :=
  let run := s.takeWhile isAlphanumByte
  if run = [] then .error .emptyMetaSegment
  else
    match numeric_identifier run with
    | some (v, len) =>
      if len = run.length then .ok (.Numeric v, run.length)
      else .ok (.AlphaNumeric run, run.length)
    | none => .ok (.AlphaNumeric run, run.length)

/-- Modelled from the spec: the dot-separated identifier list after a
metadata marker (spec section 4.4), part of `common`, missing from the
sources.  Written with a step-count argument so that it is structurally
recursive; `parse_meta` supplies a sufficient count. -/
def parse_meta_w : Nat → List Nat → Except ParseError (List Identifier × Nat)
  | 0, _ => .error .emptyMetaSegment
  | fuel + 1, s =>
    match parse_id s with
    | .error e => .error e
    | .ok (id, len) =>
      match litByte 46 (s.drop len) with
      | some d =>
        match parse_meta_w fuel (s.drop (len + d)) with
        | .error e => .error e
        | .ok (ids, len2) => .ok (id :: ids, len + d + len2)
      | none => .ok ([id], len)

/-- Modelled from the spec: the metadata identifier list (spec section 4.4),
with enough steps for the input's length. -/
def parse_meta (s : List Nat) : Except ParseError (List Identifier × Nat) :=
  parse_meta_w (s.length + 1) s

/-- Modelled from the spec: `common::parse_optional_meta`, missing from the
sources.  Per spec section 4.4: if the marker byte is absent, an empty
identifier sequence with zero consumed bytes; if present, the dot-separated
list follows it. -/
def parse_optional_meta (s : List Nat) (marker : Nat) :
    Except ParseError (List Identifier × Nat) :=
  match litByte marker s with
  | some len =>
    match parse_meta (s.drop len) with
    | .error e => .error e
    | .ok (ids, len2) => .ok (ids, len + len2)
  | none => .ok ([], 0)

/-- Body of `parse` from version.rs after the `trim`: major, dot, minor, dot,
patch, optional `-` metadata, optional `+` metadata, then the check that the
whole input was consumed, each failure short-circuiting with its message. -/
def parseTrimmed (s : List Nat) : Except ParseError Version :=
  match numeric_identifier s with
  | none => .error .majorIdentifier
  | some (major, l1) =>
    match litByte 46 (s.drop l1) with
    | none => .error .expectedDot
    | some d1 =>
      match numeric_identifier (s.drop (l1 + d1)) with
      | none => .error .minorIdentifier
      | some (minor, l2) =>
        match litByte 46 (s.drop (l1 + d1 + l2)) with
        | none => .error .expectedDot
        | some d2 =>
          match numeric_identifier (s.drop (l1 + d1 + l2 + d2)) with
          | none => .error .patchIdentifier
          | some (patch, l3) =>
            match parse_optional_meta (s.drop (l1 + d1 + l2 + d2 + l3)) 45 with
            | .error e => .error e
            | .ok (pre, lp) =>
              match parse_optional_meta
                  (s.drop (l1 + d1 + l2 + d2 + l3 + lp)) 43 with
              | .error e => .error e
              | .ok (build, lb) =>
                if l1 + d1 + l2 + d2 + l3 + lp + lb = s.length then
                  .ok ⟨major, minor, patch, pre, build⟩
                else
                  .error (.extraJunk (s.drop (l1 + d1 + l2 + d2 + l3 + lp + lb)))

/-- Function `parse` from version.rs: trim, then run the sequential parse. -/
def parse (input : List Nat) : Except ParseError Version :=
  parseTrimmed (rustTrim input)

/-- Decimal digit bytes of `n`, big-endian, empty for zero; step-count
argument for structural recursion. -/
def fmtNatAux : Nat → Nat → List Nat
  | 0, _ => []
  | fuel + 1, n => if n = 0 then [] else fmtNatAux fuel (n / 10) ++ [48 + n % 10]

/-- Embedding of the `Display` formatting of a `u64` value (`"{}"`):
its decimal digits, with a single `'0'` for zero. -/
def fmtNat (n : Nat) : List Nat := if n = 0 then [48] else fmtNatAux (n + 1) n

/-- Display for Identifier from version.rs: a numeric value prints as its
decimal digits, an alphanumeric payload verbatim. -/
def fmtIdentifier : Identifier → List Nat
  | .Numeric v => fmtNat v
  | .AlphaNumeric p => p

/-- Embedding of `strs.join(".")` from version.rs. -/
def joinDot : List (List Nat) → List Nat
  | [] => []
  | [x] => x
  | x :: y :: rest => x ++ 46 :: joinDot (y :: rest)

/-- Display for Version from version.rs: `major.minor.patch`, then
`-` and the joined `pre` identifiers when `pre` is non-empty, then
`+` and the joined `build` identifiers when `build` is non-empty. -/
def fmtVersion (v : Version) : List Nat :=
  fmtNat v.major ++ 46 :: fmtNat v.minor ++ 46 :: fmtNat v.patch
    ++ (if v.pre.isEmpty then [] else 45 :: joinDot (v.pre.map fmtIdentifier))
    ++ (if v.build.isEmpty then [] else 43 :: joinDot (v.build.map fmtIdentifier))

/-- Comparison of two u64 values, as Rust `Ord for u64`. -/
def cmpu64 (a b : Nat) : Ordering :=
  if a < b then .lt else if b < a then .gt else .eq

/-- Lexicographic comparison of sequences by an element comparison, as Rust's
`Ord` for `Vec`/`String`/slices: element-by-element, a strict prefix before
its extension. -/
def cmpList (cmp : α → α → Ordering) : List α → List α → Ordering
  | [], [] => .eq
  | [], _ :: _ => .lt
  | _ :: _, [] => .gt
  | a :: l1, b :: l2 =>
    match cmp a b with
    | .eq => cmpList cmp l1 l2
    | o => o

/-- Embedding of the derived `Ord` on `Identifier` from version.rs
(`#[derive(PartialOrd, Ord, ...)]`): variant order first (`Numeric` declared
before `AlphaNumeric`), then the payload — the u64 value, or the string as
its byte sequence. -/
def cmpIdentifier : Identifier → Identifier → Ordering
  | .Numeric a, .Numeric b => cmpu64 a b
  | .Numeric _, .AlphaNumeric _ => .lt
  | .AlphaNumeric _, .Numeric _ => .gt
  | .AlphaNumeric a, .AlphaNumeric b => cmpList cmpu64 a b

/-- Embedding of the derived `Ord` on `Version` from version.rs: fields in
declaration order, `(major, minor, patch, pre, build)`, each comparison
breaking ties for the next. -/
def cmpVersion (a b : Version) : Ordering :=
  (cmpu64 a.major b.major).then
    ((cmpu64 a.minor b.minor).then
      ((cmpu64 a.patch b.patch).then
        ((cmpList cmpIdentifier a.pre b.pre).then
          (cmpList cmpIdentifier a.build b.build))))

/-- Byte list of an ASCII string literal, for concrete test inputs. -/
def ascii (s : String) : List Nat := s.data.map Char.toNat

/-- Payload invariant for identifiers produced by the metadata parsers: a
numeric value fits in 64 bits, an alphanumeric payload is non-empty and drawn
from the identifier character set. -/
def IdOk : Identifier → Prop
  | .Numeric v => v < 2 ^ 64
  | .AlphaNumeric p => p ≠ [] ∧ ∀ b ∈ p, isAlphanumByte b = true

/-! ### List helper lemmas -/

theorem take_add' : ∀ (l : List α) (m n : Nat),
    l.take (m + n) = l.take m ++ (l.drop m).take n
  | _, 0, _ => by simp
  | [], _ + 1, _ => by simp
  | a :: l, m + 1, n => by
    rw [Nat.succ_add, List.take_succ_cons, List.take_succ_cons,
      List.drop_succ_cons, take_add' l m n, List.cons_append]

theorem take_length_takeWhile (p : α → Bool) (l : List α) :
    l.take (l.takeWhile p).length = l.takeWhile p := by
  have h : l.takeWhile p ++ l.dropWhile p = l := List.takeWhile_append_dropWhile p l
  calc l.take (l.takeWhile p).length
      = (l.takeWhile p ++ l.dropWhile p).take (l.takeWhile p).length := by rw [h]
    _ = l.takeWhile p := List.take_left _ _

theorem drop_length_takeWhile (p : α → Bool) (l : List α) :
    l.drop (l.takeWhile p).length = l.dropWhile p := by
  have h : l.takeWhile p ++ l.dropWhile p = l := List.takeWhile_append_dropWhile p l
  calc l.drop (l.takeWhile p).length
      = (l.takeWhile p ++ l.dropWhile p).drop (l.takeWhile p).length := by rw [h]
    _ = l.dropWhile p := List.drop_left _ _

theorem length_takeWhile_le (p : α → Bool) (l : List α) :
    (l.takeWhile p).length ≤ l.length := by
  conv_rhs => rw [← List.takeWhile_append_dropWhile (p := p) (l := l)]
  rw [List.length_append]
  exact Nat.le_add_right _ _

theorem takeWhile_eq_self_of_all (p : α → Bool) :
    ∀ (l : List α), (∀ b ∈ l, p b = true) → l.takeWhile p = l
  | [], _ => rfl
  | a :: l, h => by
    rw [List.takeWhile_cons, h a (List.mem_cons_self a l)]
    simp [takeWhile_eq_self_of_all p l fun b hb => h b (List.mem_cons_of_mem a hb)]

/-! ### Decimal digit lemmas -/

theorem foldl_digits_eq_ofDigits (l : List Nat) :
    ∀ acc : Nat, l.foldl (fun acc b => acc * 10 + (b - 48)) acc
      = Nat.ofDigits 10 ((l.map (fun b => b - 48)).reverse) + acc * 10 ^ l.length := by
  induction l with
  | nil => intro acc; simp [Nat.ofDigits_nil]
  | cons b l ih =>
    intro acc
    rw [List.foldl_cons, ih, List.map_cons, List.reverse_cons, Nat.ofDigits_append]
    simp only [List.length_reverse, List.length_map, List.length_cons,
      Nat.ofDigits_cons, Nat.ofDigits_nil]
    ring

theorem digitsVal_eq_ofDigits (l : List Nat) :
    digitsVal l = Nat.ofDigits 10 ((l.map (fun b => b - 48)).reverse) := by
  have h := foldl_digits_eq_ofDigits l 0
  simpa [digitsVal] using h

theorem fmtNatAux_eq : ∀ (fuel n : Nat), n ≤ fuel →
    fmtNatAux fuel n = ((Nat.digits 10 n).map (fun d => 48 + d)).reverse := by
  intro fuel
  induction fuel with
  | zero =>
    intro n hn
    interval_cases n
    simp [fmtNatAux]
  | succ fuel ih =>
    intro n hn
    by_cases h0 : n = 0
    · simp [fmtNatAux, h0]
    · have hpos : 0 < n := Nat.pos_of_ne_zero h0
      have hdiv : n / 10 < n := Nat.div_lt_self hpos (by norm_num)
      rw [fmtNatAux, if_neg h0, ih (n / 10) (by omega),
        Nat.digits_def' (by norm_num : (1:Nat) < 10) hpos]
      simp

theorem fmtNat_digitsVal (run : List Nat) (hne : run ≠ [])
    (hdig : ∀ b ∈ run, isDigitByte b = true)
    (hz : 1 < run.length → run.head? ≠ some 48) :
    fmtNat (digitsVal run) = run := by
  have hb48 : ∀ b ∈ run, 48 ≤ b ∧ b ≤ 57 := by
    intro b hb
    have := hdig b hb
    simp only [isDigitByte, Bool.and_eq_true, decide_eq_true_eq] at this
    omega
  obtain ⟨b, rest, rfl⟩ : ∃ b rest, run = b :: rest := by
    cases run with
    | nil => exact absurd rfl hne
    | cons b rest => exact ⟨b, rest, rfl⟩
  by_cases h0 : digitsVal (b :: rest) = 0
  · -- all digit values are zero, so the run is a single '0'
    have hall : ∀ d ∈ ((b :: rest).map (fun x => x - 48)).reverse, d = 0 := by
      have h0' : Nat.ofDigits 10 (((b :: rest).map (fun x => x - 48)).reverse) = 0 := by
        rw [← digitsVal_eq_ofDigits]; exact h0
      exact fun d hd => Nat.digits_zero_of_eq_zero (by norm_num) h0' d hd
    have hb0 : b = 48 := by
      have : b - 48 = 0 := by
        apply hall
        simp only [List.mem_reverse, List.mem_map]
        exact ⟨b, List.mem_cons_self b rest, rfl⟩
      have := (hb48 b (List.mem_cons_self b rest)).1
      omega
    have hrest : rest = [] := by
      by_contra hr
      have hlen : 1 < (b :: rest).length := by
        cases rest with
        | nil => exact absurd rfl hr
        | cons c t => simp
      exact hz hlen (by rw [hb0]; rfl)
    subst hrest hb0
    rw [h0]
    rfl
  · have hlt10 : ∀ d ∈ ((b :: rest).map (fun x => x - 48)).reverse, d < 10 := by
      intro d hd
      simp only [List.mem_reverse, List.mem_map] at hd
      obtain ⟨x, hx, rfl⟩ := hd
      have := hb48 x hx
      omega
    have hlast : ∀ h : ((b :: rest).map (fun x => x - 48)).reverse ≠ [],
        (((b :: rest).map (fun x => x - 48)).reverse).getLast h ≠ 0 := by
      intro h
      have hb' : b ≠ 48 := by
        cases rest with
        | nil =>
          intro hb
          apply h0
          simp [digitsVal, hb]
        | cons c t =>
          intro hb
          exact hz (by simp) (by rw [hb]; rfl)
      have := (hb48 b (List.mem_cons_self b rest)).1
      simp only [List.map_cons, List.getLast_reverse, List.head_cons]
      omega
    have hdigits : Nat.digits 10 (digitsVal (b :: rest))
        = ((b :: rest).map (fun x => x - 48)).reverse := by
      rw [digitsVal_eq_ofDigits]
      exact Nat.digits_ofDigits 10 (by norm_num) _ hlt10 hlast
    rw [fmtNat, if_neg h0, fmtNatAux_eq _ _ (Nat.le_succ _), hdigits]
    rw [List.map_reverse, List.reverse_reverse, List.map_map]
    rw [show ((fun d => 48 + d) ∘ fun x => x - 48) = fun x => 48 + (x - 48) from rfl]
    have : ∀ x ∈ b :: rest, 48 + (x - 48) = x := by
      intro x hx
      have := (hb48 x hx).1
      omega
    rw [List.map_congr_left this, List.map_id' _]

/-! ### Recognizer inversion lemmas -/

theorem litByte_some {c : Nat} {s : List Nat} {d : Nat} (h : litByte c s = some d) :
    d = 1 ∧ s.take 1 = [c] ∧ 1 ≤ s.length := by
  cases s with
  | nil => exact absurd h (by simp [litByte])
  | cons b rest =>
    simp only [litByte] at h
    by_cases hb : b = c
    · rw [if_pos hb] at h
      exact ⟨(Option.some.inj h).symm, by rw [hb]; simp, by simp⟩
    · rw [if_neg hb] at h
      exact absurd h (by simp)

theorem numeric_identifier_some {s : List Nat} {v len : Nat}
    (h : numeric_identifier s = some (v, len)) :
    fmtNat v = s.take len ∧ len = (s.takeWhile isDigitByte).length ∧ 1 ≤ len
      ∧ len ≤ s.length ∧ v < 2 ^ 64 ∧ ∀ b ∈ s.take len, isDigitByte b = true := by
  simp only [numeric_identifier] at h
  split_ifs at h with h1 h2 h3
  have h' := Option.some.inj h
  rw [Prod.mk.injEq] at h'
  obtain ⟨hv, hl⟩ := h'
  subst hv hl
  have htake : s.take (s.takeWhile isDigitByte).length = s.takeWhile isDigitByte :=
    take_length_takeWhile _ _
  refine ⟨?_, rfl, ?_, length_takeWhile_le _ _, by omega, ?_⟩
  · rw [htake]
    exact fmtNat_digitsVal _ h1 (fun b hb => List.mem_takeWhile_imp hb)
      (fun hlen heq => h2 ⟨hlen, heq⟩)
  · have : s.takeWhile isDigitByte ≠ [] := h1
    have := List.length_pos.mpr this
    omega
  · intro b hb
    rw [htake] at hb
    exact List.mem_takeWhile_imp hb

theorem parse_id_ok {s : List Nat} {id : Identifier} {len : Nat}
    (h : parse_id s = .ok (id, len)) :
    fmtIdentifier id = s.take len ∧ len = (s.takeWhile isAlphanumByte).length
      ∧ 1 ≤ len ∧ len ≤ s.length ∧ IdOk id
      ∧ ∀ b ∈ s.take len, isAlphanumByte b = true := by
  have htake : s.take (s.takeWhile isAlphanumByte).length = s.takeWhile isAlphanumByte :=
    take_length_takeWhile _ _
  have hpos : s.takeWhile isAlphanumByte ≠ [] →
      1 ≤ (s.takeWhile isAlphanumByte).length := by
    intro hne
    have := List.length_pos.mpr hne
    omega
  have hmem : ∀ b ∈ s.take (s.takeWhile isAlphanumByte).length,
      isAlphanumByte b = true := by
    intro b hb
    rw [htake] at hb
    exact List.mem_takeWhile_imp hb
  simp only [parse_id] at h
  split_ifs at h with h1
  cases hnum : numeric_identifier (s.takeWhile isAlphanumByte) with
  | none =>
    simp only [hnum] at h
    have h' := Except.ok.inj h
    rw [Prod.mk.injEq] at h'
    obtain ⟨hid, hl⟩ := h'
    subst hl
    refine ⟨?_, rfl, hpos h1, length_takeWhile_le _ _, ?_, hmem⟩
    · rw [← hid, htake]; rfl
    · rw [← hid]
      exact ⟨h1, fun b hb => List.mem_takeWhile_imp hb⟩
  | some p =>
    obtain ⟨v, nlen⟩ := p
    simp only [hnum] at h
    obtain ⟨hfmt, hnl, -, -, hlt, -⟩ := numeric_identifier_some hnum
    split_ifs at h with h2
    · have h' := Except.ok.inj h
      rw [Prod.mk.injEq] at h'
      obtain ⟨hid, hl⟩ := h'
      subst hl
      refine ⟨?_, rfl, hpos h1, length_takeWhile_le _ _, ?_, hmem⟩
      · rw [← hid, htake]
        show fmtNat v = s.takeWhile isAlphanumByte
        rw [hfmt, h2, List.take_length]
      · rw [← hid]
        exact hlt
    · have h' := Except.ok.inj h
      rw [Prod.mk.injEq] at h'
      obtain ⟨hid, hl⟩ := h'
      subst hl
      refine ⟨?_, rfl, hpos h1, length_takeWhile_le _ _, ?_, hmem⟩
      · rw [← hid, htake]; rfl
      · rw [← hid]
        exact ⟨h1, fun b hb => List.mem_takeWhile_imp hb⟩

theorem parse_id_of_empty {s : List Nat} (h : s.takeWhile isAlphanumByte = []) :
    parse_id s = .error .emptyMetaSegment := by
  simp [parse_id, h]

/-! ### Metadata list lemmas -/

theorem parse_meta_w_ok : ∀ (fuel : Nat) (s : List Nat) (ids : List Identifier) (len : Nat),
    parse_meta_w fuel s = .ok (ids, len) →
    ids ≠ [] ∧ joinDot (ids.map fmtIdentifier) = s.take len ∧ len ≤ s.length
      ∧ (∀ id ∈ ids, IdOk id)
      ∧ (∀ b ∈ s.take len, isAlphanumByte b = true ∨ b = 46) := by
  intro fuel
  induction fuel with
  | zero => intro s ids len h; exact absurd h (by simp [parse_meta_w])
  | succ fuel ih =>
    intro s ids len h
    simp only [parse_meta_w] at h
    cases hid : parse_id s with
    | error e => simp [hid] at h
    | ok p =>
      obtain ⟨id, len1⟩ := p
      simp only [hid] at h
      obtain ⟨hfmt, -, h1le, hle, hidok, hbytes⟩ := parse_id_ok hid
      cases hlit : litByte 46 (s.drop len1) with
      | none =>
        simp only [hlit] at h
        have h' := Except.ok.inj h
        rw [Prod.mk.injEq] at h'
        obtain ⟨hids, hl⟩ := h'
        subst hl
        subst hids
        refine ⟨by simp, ?_, hle, ?_, ?_⟩
        · show joinDot [fmtIdentifier id] = s.take len1
          rw [show joinDot [fmtIdentifier id] = fmtIdentifier id from rfl]
          exact hfmt
        · intro i hi
          rw [List.mem_singleton] at hi
          subst hi
          exact hidok
        · intro b hb
          exact .inl (hbytes b hb)
      | some d =>
        obtain ⟨hd1, htk1, hlen1'⟩ := litByte_some hlit
        subst hd1
        simp only [hlit] at h
        cases hrec : parse_meta_w fuel (s.drop (len1 + 1)) with
        | error e => simp [hrec] at h
        | ok q =>
          obtain ⟨ids2, len2⟩ := q
          simp only [hrec] at h
          have h' := Except.ok.inj h
          rw [Prod.mk.injEq] at h'
          obtain ⟨hids, hl⟩ := h'
          subst hl
          subst hids
          obtain ⟨hne2, hfmt2, hle2, hidok2, hbytes2⟩ := ih (s.drop (len1 + 1)) ids2 len2 hrec
          have hdrop1 : (s.drop len1).drop 1 = s.drop (len1 + 1) := List.drop_drop 1 len1 s
          have hsplit : s.take (len1 + 1 + len2)
              = s.take len1 ++ [46] ++ (s.drop (len1 + 1)).take len2 := by
            rw [take_add' s (len1 + 1) len2, take_add' s len1 1, htk1, List.append_assoc]
          have hlen_drop : (s.drop (len1 + 1)).length = s.length - (len1 + 1) :=
            List.length_drop _ _
          have hlen_drop' : (s.drop len1).length = s.length - len1 := List.length_drop _ _
          refine ⟨by simp, ?_, by omega, ?_, ?_⟩
          · obtain ⟨i2, r2, rfl⟩ : ∃ i2 r2, ids2 = i2 :: r2 := by
              cases ids2 with
              | nil => exact absurd rfl hne2
              | cons i2 r2 => exact ⟨i2, r2, rfl⟩
            rw [hsplit]
            show fmtIdentifier id ++ 46 :: joinDot ((i2 :: r2).map fmtIdentifier)
              = s.take len1 ++ [46] ++ (s.drop (len1 + 1)).take len2
            rw [hfmt, hfmt2.symm.symm]
            rw [← hfmt2, List.append_assoc]
            rfl
          · intro i hi
            rcases List.mem_cons.mp hi with hi | hi
            · subst hi; exact hidok
            · exact hidok2 i hi
          · intro b hb
            rw [hsplit] at hb
            rcases List.mem_append.mp hb with hb | hb
            · rcases List.mem_append.mp hb with hb | hb
              · exact .inl (hbytes b hb)
              · rw [List.mem_singleton] at hb
                exact .inr hb
            · exact hbytes2 b hb

theorem parse_optional_meta_ok {s : List Nat} {marker : Nat} {ids : List Identifier}
    {len : Nat} (h : parse_optional_meta s marker = .ok (ids, len)) :
    (ids = [] ∧ len = 0)
    ∨ (ids ≠ [] ∧ 1 ≤ len ∧ len ≤ s.length
        ∧ s.take len = marker :: joinDot (ids.map fmtIdentifier)
        ∧ (∀ id ∈ ids, IdOk id)
        ∧ (∀ b ∈ s.take len, isAlphanumByte b = true ∨ b = 46 ∨ b = marker)) := by
  simp only [parse_optional_meta] at h
  cases hlit : litByte marker s with
  | none =>
    simp only [hlit] at h
    have h' := Except.ok.inj h
    rw [Prod.mk.injEq] at h'
    exact .inl ⟨h'.1.symm, h'.2.symm⟩
  | some d =>
    obtain ⟨hd, htk, hlen1⟩ := litByte_some hlit
    subst hd
    simp only [hlit] at h
    cases hrec : parse_meta (s.drop 1) with
    | error e => rw [hrec] at h; exact absurd h (by simp)
    | ok q =>
      obtain ⟨ids2, len2⟩ := q
      rw [hrec] at h
      have h' := Except.ok.inj h
      rw [Prod.mk.injEq] at h'
      obtain ⟨hids, hl⟩ := h'
      subst hids
      subst hl
      simp only [parse_meta] at hrec
      obtain ⟨hne, hfmt, hle, hidok, hbytes⟩ := parse_meta_w_ok _ _ _ _ hrec
      have hlen_drop : (s.drop 1).length = s.length - 1 := List.length_drop _ _
      have hsplit : s.take (1 + len2) = [marker] ++ (s.drop 1).take len2 := by
        rw [take_add' s 1 len2, htk]
      refine .inr ⟨hne, by omega, by omega, ?_, hidok, ?_⟩
      · rw [hsplit, ← hfmt]
        rfl
      · intro b hb
        rw [hsplit] at hb
        rcases List.mem_append.mp hb with hb | hb
        · rw [List.mem_singleton] at hb
          exact .inr (.inr hb)
        · rcases hbytes b hb with hb' | hb'
          · exact .inl hb'
          · exact .inr (.inl hb')

theorem parse_meta_w_of_empty (fuel : Nat) (s : List Nat)
    (h : s.takeWhile isAlphanumByte = []) :
    parse_meta_w (fuel + 1) s = .error .emptyMetaSegment := by
  simp [parse_meta_w, parse_id_of_empty h]

theorem parse_meta_of_empty (s : List Nat) (h : s.takeWhile isAlphanumByte = []) :
    parse_meta s = .error .emptyMetaSegment := by
  simp only [parse_meta]
  exact parse_meta_w_of_empty s.length s h

theorem parse_optional_meta_absent {s : List Nat} {marker : Nat}
    (h : litByte marker s = none) : parse_optional_meta s marker = .ok ([], 0) := by
  simp [parse_optional_meta, h]

theorem parse_optional_meta_empty_after_marker {marker : Nat} {rest : List Nat}
    (h : rest.takeWhile isAlphanumByte = []) :
    parse_optional_meta (marker :: rest) marker = .error .emptyMetaSegment := by
  have hlit : litByte marker (marker :: rest) = some 1 := by simp [litByte]
  simp [parse_optional_meta, hlit, parse_meta_of_empty rest h]

theorem parse_id_error_eq {s : List Nat} {e : ParseError}
    (h : parse_id s = .error e) : e = .emptyMetaSegment := by
  simp only [parse_id] at h
  split_ifs at h with h1
  · exact (Except.error.inj h).symm
  · cases hnum : numeric_identifier (s.takeWhile isAlphanumByte) with
    | none => simp only [hnum] at h; exact absurd h (by simp)
    | some p =>
      obtain ⟨v, nlen⟩ := p
      simp only [hnum] at h
      split_ifs at h

theorem parse_meta_w_error_eq : ∀ (fuel : Nat) (s : List Nat) (e : ParseError),
    parse_meta_w fuel s = .error e → e = .emptyMetaSegment := by
  intro fuel
  induction fuel with
  | zero =>
    intro s e h
    simp only [parse_meta_w] at h
    exact (Except.error.inj h).symm
  | succ fuel ih =>
    intro s e h
    simp only [parse_meta_w] at h
    cases hid : parse_id s with
    | error e0 =>
      simp only [hid] at h
      rw [parse_id_error_eq hid] at h
      exact (Except.error.inj h).symm
    | ok p =>
      obtain ⟨id, len⟩ := p
      simp only [hid] at h
      cases hlit : litByte 46 (s.drop len) with
      | none => simp only [hlit] at h; exact absurd h (by simp)
      | some d =>
        simp only [hlit] at h
        cases hrec : parse_meta_w fuel (s.drop (len + d)) with
        | error e0 =>
          simp only [hrec] at h
          rw [← Except.error.inj h]
          exact ih _ _ hrec
        | ok q =>
          obtain ⟨ids, len2⟩ := q
          simp only [hrec] at h
          exact absurd h (by simp)

theorem parse_optional_meta_error_eq {s : List Nat} {marker : Nat} {e : ParseError}
    (h : parse_optional_meta s marker = .error e) : e = .emptyMetaSegment := by
  simp only [parse_optional_meta] at h
  cases hlit : litByte marker s with
  | none => simp only [hlit] at h; exact absurd h (by simp)
  | some d =>
    simp only [hlit] at h
    cases hrec : parse_meta (s.drop d) with
    | error e0 =>
      simp only [hrec] at h
      rw [← Except.error.inj h]
      simp only [parse_meta] at hrec
      exact parse_meta_w_error_eq _ _ _ hrec
    | ok q =>
      obtain ⟨ids, len2⟩ := q
      simp only [hrec] at h
      exact absurd h (by simp)

/-! ### Whole-parse inversion lemmas -/

theorem isDigitByte_lt_128 {b : Nat} (h : isDigitByte b = true) : b < 128 := by
  simp only [isDigitByte, Bool.and_eq_true, decide_eq_true_eq] at h
  omega

theorem isAlphanumByte_lt_128 {b : Nat} (h : isAlphanumByte b = true) : b < 128 := by
  simp only [isAlphanumByte, isDigitByte, Bool.or_eq_true, Bool.and_eq_true,
    decide_eq_true_eq, beq_iff_eq] at h
  omega

theorem take_split7 (s : List Nat) (a b c d e f g : Nat) :
    s.take (a + b + c + d + e + f + g)
      = s.take a ++ (s.drop a).take b ++ (s.drop (a + b)).take c
        ++ (s.drop (a + b + c)).take d ++ (s.drop (a + b + c + d)).take e
        ++ (s.drop (a + b + c + d + e)).take f
        ++ (s.drop (a + b + c + d + e + f)).take g := by
  rw [take_add' s (a + b + c + d + e + f) g,
      take_add' s (a + b + c + d + e) f,
      take_add' s (a + b + c + d) e,
      take_add' s (a + b + c) d,
      take_add' s (a + b) c,
      take_add' s a b]

theorem parseTrimmed_ok {s : List Nat} {v : Version} (h : parseTrimmed s = .ok v) :
    fmtVersion v = s ∧ (∀ b ∈ s, b < 128) ∧ ∀ id ∈ v.pre ++ v.build, IdOk id := by
  simp only [parseTrimmed] at h
  cases h1 : numeric_identifier s with
  | none => simp only [h1] at h; exact absurd h (by simp)
  | some p1 =>
  obtain ⟨major, l1⟩ := p1
  simp only [h1] at h
  cases hd1 : litByte 46 (s.drop l1) with
  | none => simp only [hd1] at h; exact absurd h (by simp)
  | some d1 =>
  simp only [hd1] at h
  cases h2 : numeric_identifier (s.drop (l1 + d1)) with
  | none => simp only [h2] at h; exact absurd h (by simp)
  | some p2 =>
  obtain ⟨minor, l2⟩ := p2
  simp only [h2] at h
  cases hd2 : litByte 46 (s.drop (l1 + d1 + l2)) with
  | none => simp only [hd2] at h; exact absurd h (by simp)
  | some d2 =>
  simp only [hd2] at h
  cases h3 : numeric_identifier (s.drop (l1 + d1 + l2 + d2)) with
  | none => simp only [h3] at h; exact absurd h (by simp)
  | some p3 =>
  obtain ⟨patch, l3⟩ := p3
  simp only [h3] at h
  cases hpre : parse_optional_meta (s.drop (l1 + d1 + l2 + d2 + l3)) 45 with
  | error e => simp only [hpre] at h; exact absurd h (by simp)
  | ok q1 =>
  obtain ⟨pre, lp⟩ := q1
  simp only [hpre] at h
  cases hbuild : parse_optional_meta (s.drop (l1 + d1 + l2 + d2 + l3 + lp)) 43 with
  | error e => simp only [hbuild] at h; exact absurd h (by simp)
  | ok q2 =>
  obtain ⟨build, lb⟩ := q2
  simp only [hbuild] at h
  split_ifs at h with htot
  have hv := Except.ok.inj h
  subst hv
  obtain ⟨hfmt1, -, hpos1, hle1, -, hdig1⟩ := numeric_identifier_some h1
  obtain ⟨hde1, htk1, hpos1'⟩ := litByte_some hd1
  subst hde1
  obtain ⟨hfmt2, -, hpos2, hle2, -, hdig2⟩ := numeric_identifier_some h2
  obtain ⟨hde2, htk2, hpos2'⟩ := litByte_some hd2
  subst hde2
  obtain ⟨hfmt3, -, hpos3, hle3, -, hdig3⟩ := numeric_identifier_some h3
  have hp := parse_optional_meta_ok hpre
  have hb := parse_optional_meta_ok hbuild
  have hsplit := take_split7 s l1 1 l2 1 l3 lp lb
  have hstake : s.take (l1 + 1 + l2 + 1 + l3 + lp + lb) = s := by
    rw [htot, List.take_length]
  have hpre_seg :
      (if pre.isEmpty then ([] : List Nat)
        else 45 :: joinDot (pre.map fmtIdentifier))
        = (s.drop (l1 + 1 + l2 + 1 + l3)).take lp := by
    rcases hp with ⟨hpe, hlp⟩ | ⟨hpne, -, -, hptake, -, -⟩
    · subst hpe hlp
      simp
    · obtain ⟨p0, prest, rfl⟩ : ∃ p0 prest, pre = p0 :: prest := by
        cases pre with
        | nil => exact absurd rfl hpne
        | cons p0 prest => exact ⟨p0, prest, rfl⟩
      rw [hptake]
      rfl
  have hbuild_seg :
      (if build.isEmpty then ([] : List Nat)
        else 43 :: joinDot (build.map fmtIdentifier))
        = (s.drop (l1 + 1 + l2 + 1 + l3 + lp)).take lb := by
    rcases hb with ⟨hbe, hlb⟩ | ⟨hbne, -, -, hbtake, -, -⟩
    · subst hbe hlb
      simp
    · obtain ⟨b0, brest, rfl⟩ : ∃ b0 brest, build = b0 :: brest := by
        cases build with
        | nil => exact absurd rfl hbne
        | cons b0 brest => exact ⟨b0, brest, rfl⟩
      rw [hbtake]
      rfl
  refine ⟨?_, ?_, ?_⟩
  · show fmtNat major ++ 46 :: fmtNat minor ++ 46 :: fmtNat patch
        ++ (if pre.isEmpty then [] else 45 :: joinDot (pre.map fmtIdentifier))
        ++ (if build.isEmpty then [] else 43 :: joinDot (build.map fmtIdentifier)) = s
    refine Eq.trans ?_ hstake
    rw [hsplit, hfmt1, hfmt2, hfmt3, hpre_seg, hbuild_seg, htk1, htk2]
    simp [List.append_assoc]
  · intro b hb'
    rw [← hstake, hsplit] at hb'
    simp only [List.append_assoc, List.mem_append] at hb'
    rcases hb' with hb' | hb' | hb' | hb' | hb' | hb' | hb'
    · exact isDigitByte_lt_128 (hdig1 b hb')
    · rw [htk1, List.mem_singleton] at hb'; omega
    · exact isDigitByte_lt_128 (hdig2 b hb')
    · rw [htk2, List.mem_singleton] at hb'; omega
    · exact isDigitByte_lt_128 (hdig3 b hb')
    · rcases hp with ⟨-, hlp⟩ | ⟨-, -, -, -, -, hpbytes⟩
      · subst hlp; simp at hb'
      · rcases hpbytes b hb' with h' | h' | h'
        · exact isAlphanumByte_lt_128 h'
        · omega
        · omega
    · rcases hb with ⟨-, hlb⟩ | ⟨-, -, -, -, -, hbbytes⟩
      · subst hlb; simp at hb'
      · rcases hbbytes b hb' with h' | h' | h'
        · exact isAlphanumByte_lt_128 h'
        · omega
        · omega
  · intro id hid
    show IdOk id
    rcases List.mem_append.mp hid with hid | hid
    · rcases hp with ⟨hpe, -⟩ | ⟨-, -, -, -, hpidok, -⟩
      · subst hpe; simp at hid
      · exact hpidok id hid
    · rcases hb with ⟨hbe, -⟩ | ⟨-, -, -, -, hbidok, -⟩
      · subst hbe; simp at hid
      · exact hbidok id hid

theorem parseTrimmed_junk {s rem : List Nat}
    (h : parseTrimmed s = .error (.extraJunk rem)) :
    ∃ i, i < s.length ∧ rem = s.drop i ∧ rem ≠ [] ∧ ∀ b ∈ s.take i, b < 128 := by
  simp only [parseTrimmed] at h
  cases h1 : numeric_identifier s with
  | none => simp only [h1] at h; exact absurd h (by simp)
  | some p1 =>
  obtain ⟨major, l1⟩ := p1
  simp only [h1] at h
  cases hd1 : litByte 46 (s.drop l1) with
  | none => simp only [hd1] at h; exact absurd h (by simp)
  | some d1 =>
  simp only [hd1] at h
  cases h2 : numeric_identifier (s.drop (l1 + d1)) with
  | none => simp only [h2] at h; exact absurd h (by simp)
  | some p2 =>
  obtain ⟨minor, l2⟩ := p2
  simp only [h2] at h
  cases hd2 : litByte 46 (s.drop (l1 + d1 + l2)) with
  | none => simp only [hd2] at h; exact absurd h (by simp)
  | some d2 =>
  simp only [hd2] at h
  cases h3 : numeric_identifier (s.drop (l1 + d1 + l2 + d2)) with
  | none => simp only [h3] at h; exact absurd h (by simp)
  | some p3 =>
  obtain ⟨patch, l3⟩ := p3
  simp only [h3] at h
  cases hpre : parse_optional_meta (s.drop (l1 + d1 + l2 + d2 + l3)) 45 with
  | error e =>
    simp only [hpre] at h
    rw [parse_optional_meta_error_eq hpre] at h
    exact absurd h (by simp)
  | ok q1 =>
  obtain ⟨pre, lp⟩ := q1
  simp only [hpre] at h
  cases hbuild : parse_optional_meta (s.drop (l1 + d1 + l2 + d2 + l3 + lp)) 43 with
  | error e =>
    simp only [hbuild] at h
    rw [parse_optional_meta_error_eq hbuild] at h
    exact absurd h (by simp)
  | ok q2 =>
  obtain ⟨build, lb⟩ := q2
  simp only [hbuild] at h
  split_ifs at h with htot
  · have hrem : rem = s.drop (l1 + d1 + l2 + d2 + l3 + lp + lb) := by
      have h' := Except.error.inj h
      exact (ParseError.extraJunk.inj h').symm
    obtain ⟨hfmt1, -, hpos1, hle1, -, hdig1⟩ := numeric_identifier_some h1
    obtain ⟨hde1, htk1, hpos1'⟩ := litByte_some hd1
    subst hde1
    obtain ⟨hfmt2, -, hpos2, hle2, -, hdig2⟩ := numeric_identifier_some h2
    obtain ⟨hde2, htk2, hpos2'⟩ := litByte_some hd2
    subst hde2
    obtain ⟨hfmt3, -, hpos3, hle3, -, hdig3⟩ := numeric_identifier_some h3
    have hp := parse_optional_meta_ok hpre
    have hb := parse_optional_meta_ok hbuild
    have hlen1 : (s.drop l1).length = s.length - l1 := List.length_drop _ _
    have hlen2 : (s.drop (l1 + 1)).length = s.length - (l1 + 1) := List.length_drop _ _
    have hlen3 : (s.drop (l1 + 1 + l2)).length = s.length - (l1 + 1 + l2) :=
      List.length_drop _ _
    have hlen4 : (s.drop (l1 + 1 + l2 + 1)).length = s.length - (l1 + 1 + l2 + 1) :=
      List.length_drop _ _
    have hlen5 : (s.drop (l1 + 1 + l2 + 1 + l3)).length
        = s.length - (l1 + 1 + l2 + 1 + l3) := List.length_drop _ _
    have hlen6 : (s.drop (l1 + 1 + l2 + 1 + l3 + lp)).length
        = s.length - (l1 + 1 + l2 + 1 + l3 + lp) := List.length_drop _ _
    have hplp : lp ≤ (s.drop (l1 + 1 + l2 + 1 + l3)).length := by
      rcases hp with ⟨-, hlp⟩ | ⟨-, -, hlple, -, -, -⟩
      · omega
      · exact hlple
    have hblb : lb ≤ (s.drop (l1 + 1 + l2 + 1 + l3 + lp)).length := by
      rcases hb with ⟨-, hlb⟩ | ⟨-, -, hlble, -, -, -⟩
      · omega
      · exact hlble
    have hile : l1 + 1 + l2 + 1 + l3 + lp + lb ≤ s.length := by omega
    have hilt : l1 + 1 + l2 + 1 + l3 + lp + lb < s.length := by omega
    refine ⟨l1 + 1 + l2 + 1 + l3 + lp + lb, hilt, hrem, ?_, ?_⟩
    · rw [hrem]
      intro hnil
      have := congrArg List.length hnil
      rw [List.length_drop] at this
      simp at this
      omega
    · intro b hb'
      rw [take_split7 s l1 1 l2 1 l3 lp lb] at hb'
      simp only [List.append_assoc, List.mem_append] at hb'
      rcases hb' with hb' | hb' | hb' | hb' | hb' | hb' | hb'
      · exact isDigitByte_lt_128 (hdig1 b hb')
      · rw [htk1, List.mem_singleton] at hb'; omega
      · exact isDigitByte_lt_128 (hdig2 b hb')
      · rw [htk2, List.mem_singleton] at hb'; omega
      · exact isDigitByte_lt_128 (hdig3 b hb')
      · rcases hp with ⟨-, hlp⟩ | ⟨-, -, -, -, -, hpbytes⟩
        · subst hlp; simp at hb'
        · rcases hpbytes b hb' with h' | h' | h'
          · exact isAlphanumByte_lt_128 h'
          · omega
          · omega
      · rcases hb with ⟨-, hlb⟩ | ⟨-, -, -, -, -, hbbytes⟩
        · subst hlb; simp at hb'
        · rcases hbbytes b hb' with h' | h' | h'
          · exact isAlphanumByte_lt_128 h'
          · omega
          · omega

/-! ### Trimming lemmas -/

theorem head?_dropWhile_not (p : α → Bool) :
    ∀ (l : List α) (b : α), (l.dropWhile p).head? = some b → p b = false := by
  intro l
  induction l with
  | nil => intro b h; simp at h
  | cons a t ih =>
    intro b h
    rw [List.dropWhile_cons] at h
    split_ifs at h with ha
    · exact ih b h
    · rw [List.head?_cons] at h
      rw [← Option.some.inj h]
      exact Bool.of_not_eq_true ha

theorem dropWhile_eq_self_of_head (p : α → Bool) (l : List α)
    (h : ∀ b, l.head? = some b → p b = false) : l.dropWhile p = l := by
  cases l with
  | nil => rfl
  | cons a t =>
    rw [List.dropWhile_cons, h a (by rw [List.head?_cons])]
    simp

theorem rustTrim_idem (s : List Nat) : rustTrim (rustTrim s) = rustTrim s := by
  set u := s.dropWhile isWhitespaceByte with hu
  set v := u.reverse.dropWhile isWhitespaceByte with hv
  have huhead : ∀ b, u.head? = some b → isWhitespaceByte b = false :=
    fun b hb => head?_dropWhile_not _ s b hb
  have hvhead : ∀ b, v.head? = some b → isWhitespaceByte b = false :=
    fun b hb => head?_dropWhile_not _ u.reverse b hb
  have hudecomp : u = v.reverse ++ (u.reverse.takeWhile isWhitespaceByte).reverse := by
    have h1 : u.reverse.takeWhile isWhitespaceByte ++ v = u.reverse := by
      rw [hv]; exact List.takeWhile_append_dropWhile _ _
    calc u = u.reverse.reverse := (List.reverse_reverse u).symm
      _ = (u.reverse.takeWhile isWhitespaceByte ++ v).reverse := by rw [h1]
      _ = v.reverse ++ (u.reverse.takeWhile isWhitespaceByte).reverse := by
        rw [List.reverse_append]
  have htrim : rustTrim s = v.reverse := rfl
  rw [htrim]
  show ((v.reverse.dropWhile isWhitespaceByte).reverse.dropWhile
    isWhitespaceByte).reverse = v.reverse
  have hvrev_head : ∀ b, v.reverse.head? = some b → isWhitespaceByte b = false := by
    intro b hb
    cases hvr : v.reverse with
    | nil => rw [hvr] at hb; simp at hb
    | cons c t =>
      rw [hvr, List.head?_cons] at hb
      have hvne : v.reverse ≠ [] := by rw [hvr]; simp
      have huhead' : u.head? = some c := by
        rw [hudecomp, hvr]
        rfl
      rw [← Option.some.inj hb]
      exact huhead c huhead'
  rw [dropWhile_eq_self_of_head _ _ hvrev_head, List.reverse_reverse,
    dropWhile_eq_self_of_head _ _ hvhead]

theorem parse_rustTrim (s : List Nat) : parse (rustTrim s) = parse s := by
  show parseTrimmed (rustTrim (rustTrim s)) = parseTrimmed (rustTrim s)
  rw [rustTrim_idem]

/-! ### Round-trip helpers -/

theorem parse_ok_fmt {s : List Nat} {v : Version} (h : parse s = .ok v) :
    fmtVersion v = rustTrim s :=
  (parseTrimmed_ok h).1

theorem rustTrim_fmt {v : Version} {s : List Nat} (h : parse s = .ok v) :
    rustTrim (fmtVersion v) = fmtVersion v := by
  have h1 : fmtVersion v = rustTrim s := parse_ok_fmt h
  rw [h1, rustTrim_idem]

/-! ### Ordering lemmas -/

theorem then_eq_eq {o p : Ordering} : o.then p = .eq ↔ o = .eq ∧ p = .eq := by
  cases o <;> simp [Ordering.then]

theorem then_eq_lt {o p : Ordering} : o.then p = .lt ↔ o = .lt ∨ (o = .eq ∧ p = .lt) := by
  cases o <;> simp [Ordering.then]

theorem then_swap (o p : Ordering) : (o.then p).swap = o.swap.then p.swap := by
  cases o <;> rfl

theorem swap_inv {o p : Ordering} (h : o = p.swap) : p = o.swap := by
  cases p <;> subst h <;> rfl

/-- Comparator laws with respect to plain equality. -/
structure LawfulCmp (cmp : α → α → Ordering) : Prop where
  eq_iff : ∀ a b, cmp a b = .eq ↔ a = b
  symm : ∀ a b, cmp a b = (cmp b a).swap
  lt_trans : ∀ a b c, cmp a b = .lt → cmp b c = .lt → cmp a c = .lt

/-- Comparator laws with respect to an equivalence `E`, with a congruence law,
for composing lexicographic field comparisons. -/
structure LawfulCmpOn (E : γ → γ → Prop) (cmp : γ → γ → Ordering) : Prop where
  eq_iff : ∀ a b, cmp a b = .eq ↔ E a b
  symm : ∀ a b, cmp a b = (cmp b a).swap
  lt_trans : ∀ a b c, cmp a b = .lt → cmp b c = .lt → cmp a c = .lt
  congrL : ∀ a b, cmp a b = .eq → ∀ c, cmp a c = cmp b c

theorem lawfulCmpOn_of_proj {f : γ → α} {c : α → α → Ordering} (h : LawfulCmp c) :
    LawfulCmpOn (fun a b => f a = f b) (fun a b => c (f a) (f b)) where
  eq_iff a b := h.eq_iff (f a) (f b)
  symm a b := h.symm _ _
  lt_trans _ _ _ hab hbc := h.lt_trans _ _ _ hab hbc
  congrL a b hab c := by rw [(h.eq_iff _ _).mp hab]

theorem lawfulCmpOn_then {E1 E2 : γ → γ → Prop} {c1 c2 : γ → γ → Ordering}
    (h1 : LawfulCmpOn E1 c1) (h2 : LawfulCmpOn E2 c2) :
    LawfulCmpOn (fun a b => E1 a b ∧ E2 a b) (fun a b => (c1 a b).then (c2 a b)) where
  eq_iff a b := by rw [then_eq_eq, h1.eq_iff, h2.eq_iff]
  symm a b := by rw [then_swap, ← h1.symm, ← h2.symm]
  lt_trans a b c hab hbc := by
    rw [then_eq_lt] at hab hbc ⊢
    rcases hab with hab | ⟨hab, hab2⟩
    · rcases hbc with hbc | ⟨hbc, hbc2⟩
      · exact .inl (h1.lt_trans _ _ _ hab hbc)
      · left
        have hba := h1.congrL _ _ hbc a
        rw [h1.symm a c, ← hba, ← h1.symm a b]
        exact hab
    · rcases hbc with hbc | ⟨hbc, hbc2⟩
      · left
        rw [h1.congrL _ _ hab c]
        exact hbc
      · right
        exact ⟨by rw [h1.congrL _ _ hab c]; exact hbc, h2.lt_trans _ _ _ hab2 hbc2⟩
  congrL a b hab c := by
    rw [then_eq_eq] at hab
    rw [h1.congrL _ _ hab.1 c, h2.congrL _ _ hab.2 c]

theorem lawfulCmp_cmpu64 : LawfulCmp cmpu64 where
  eq_iff a b := by
    unfold cmpu64
    split_ifs with h1 h2
    · constructor
      · intro h; exact absurd h (by decide)
      · intro h; omega
    · constructor
      · intro h; exact absurd h (by decide)
      · intro h; omega
    · constructor
      · intro h; omega
      · intro h; rfl
  symm a b := by
    unfold cmpu64
    split_ifs <;> first | rfl | omega
  lt_trans a b c hab hbc := by
    unfold cmpu64 at *
    split_ifs at hab hbc ⊢ <;> first | rfl | omega

theorem cmpList_eq_iff {cmp : α → α → Ordering} (h : LawfulCmp cmp) :
    ∀ l1 l2 : List α, cmpList cmp l1 l2 = .eq ↔ l1 = l2
  | [], [] => by simp [cmpList]
  | [], _ :: _ => by simp [cmpList]
  | _ :: _, [] => by simp [cmpList]
  | a :: l1, b :: l2 => by
    cases hab : cmp a b with
    | eq =>
      have hab' : a = b := (h.eq_iff a b).mp hab
      subst hab'
      simp only [cmpList, hab]
      rw [cmpList_eq_iff h l1 l2]
      simp
    | lt =>
      simp only [cmpList, hab]
      constructor
      · intro hh; exact absurd hh (by decide)
      · intro hh
        rw [List.cons.injEq] at hh
        rw [(h.eq_iff a b).mpr hh.1] at hab
        exact absurd hab (by decide)
    | gt =>
      simp only [cmpList, hab]
      constructor
      · intro hh; exact absurd hh (by decide)
      · intro hh
        rw [List.cons.injEq] at hh
        rw [(h.eq_iff a b).mpr hh.1] at hab
        exact absurd hab (by decide)

theorem cmpList_symm {cmp : α → α → Ordering} (h : LawfulCmp cmp) :
    ∀ l1 l2 : List α, cmpList cmp l1 l2 = (cmpList cmp l2 l1).swap
  | [], [] => rfl
  | [], _ :: _ => rfl
  | _ :: _, [] => rfl
  | a :: l1, b :: l2 => by
    cases hab : cmp a b with
    | eq =>
      have hba : cmp b a = .eq := by
        have hs := h.symm a b
        rw [hab] at hs
        rw [swap_inv hs]
        rfl
      simp only [cmpList, hab, hba]
      exact cmpList_symm h l1 l2
    | lt =>
      have hba : cmp b a = .gt := by
        have hs := h.symm a b
        rw [hab] at hs
        rw [swap_inv hs]
        rfl
      simp only [cmpList, hab, hba]
      rfl
    | gt =>
      have hba : cmp b a = .lt := by
        have hs := h.symm a b
        rw [hab] at hs
        rw [swap_inv hs]
        rfl
      simp only [cmpList, hab, hba]
      rfl

theorem cmpList_lt_trans {cmp : α → α → Ordering} (h : LawfulCmp cmp) :
    ∀ l1 l2 l3 : List α, cmpList cmp l1 l2 = .lt → cmpList cmp l2 l3 = .lt →
      cmpList cmp l1 l3 = .lt
  | _, [], [] => by intro _ h23; exact absurd h23 (by simp [cmpList])
  | _, _ :: _, [] => by intro _ h23; exact absurd h23 (by simp [cmpList])
  | [], _, _ :: _ => by intro _ _; simp [cmpList]
  | _ :: _, [], _ :: _ => by intro h12 _; exact absurd h12 (by simp [cmpList])
  | a :: l1, b :: l2, c :: l3 => by
    intro h12 h23
    cases hab : cmp a b with
    | gt =>
      rw [show cmpList cmp (a :: l1) (b :: l2)
        = (match cmp a b with | .eq => cmpList cmp l1 l2 | o => o) from rfl, hab] at h12
      have h12' : Ordering.gt = Ordering.lt := h12
      exact absurd h12' (by decide)
    | lt =>
      cases hbc : cmp b c with
      | gt =>
        rw [show cmpList cmp (b :: l2) (c :: l3)
          = (match cmp b c with | .eq => cmpList cmp l2 l3 | o => o) from rfl, hbc] at h23
        have h23' : Ordering.gt = Ordering.lt := h23
        exact absurd h23' (by decide)
      | lt =>
        simp only [cmpList, h.lt_trans a b c hab hbc]
      | eq =>
        have hbc' : b = c := (h.eq_iff b c).mp hbc
        subst hbc'
        simp only [cmpList, hab]
    | eq =>
      have hab' : a = b := (h.eq_iff a b).mp hab
      subst hab'
      rw [show cmpList cmp (a :: l1) (a :: l2)
        = (match cmp a a with | .eq => cmpList cmp l1 l2 | o => o) from rfl, hab] at h12
      cases hbc : cmp a c with
      | gt =>
        rw [show cmpList cmp (a :: l2) (c :: l3)
          = (match cmp a c with | .eq => cmpList cmp l2 l3 | o => o) from rfl, hbc] at h23
        have h23' : Ordering.gt = Ordering.lt := h23
        exact absurd h23' (by decide)
      | lt => simp only [cmpList, hbc]
      | eq =>
        rw [show cmpList cmp (a :: l2) (c :: l3)
          = (match cmp a c with | .eq => cmpList cmp l2 l3 | o => o) from rfl, hbc] at h23
        simp only [cmpList, hbc]
        exact cmpList_lt_trans h l1 l2 l3 h12 h23

theorem lawfulCmp_cmpList {cmp : α → α → Ordering} (h : LawfulCmp cmp) :
    LawfulCmp (cmpList cmp) :=
  ⟨cmpList_eq_iff h, cmpList_symm h, cmpList_lt_trans h⟩

theorem lawfulCmp_cmpIdentifier : LawfulCmp cmpIdentifier where
  eq_iff a b := by
    cases a <;> cases b <;>
      simp [cmpIdentifier, lawfulCmp_cmpu64.eq_iff,
        (lawfulCmp_cmpList lawfulCmp_cmpu64).eq_iff]
  symm a b := by
    cases a <;> cases b <;>
      first
        | rfl
        | exact lawfulCmp_cmpu64.symm _ _
        | exact (lawfulCmp_cmpList lawfulCmp_cmpu64).symm _ _
  lt_trans a b c hab hbc := by
    cases a <;> cases b <;> cases c <;>
      simp only [cmpIdentifier] at hab hbc ⊢ <;>
      first
        | rfl
        | exact absurd hab (by decide)
        | exact absurd hbc (by decide)
        | exact lawfulCmp_cmpu64.lt_trans _ _ _ hab hbc
        | exact (lawfulCmp_cmpList lawfulCmp_cmpu64).lt_trans _ _ _ hab hbc

/-- Field-wise equality of two versions, the equivalence underlying the derived
lexicographic comparison. -/
def versionFieldsEq (a b : Version) : Prop :=
  a.major = b.major ∧ (a.minor = b.minor ∧ (a.patch = b.patch
    ∧ (a.pre = b.pre ∧ a.build = b.build)))

theorem lawfulCmpOn_cmpVersion : LawfulCmpOn versionFieldsEq cmpVersion :=
  lawfulCmpOn_then (lawfulCmpOn_of_proj (f := Version.major) lawfulCmp_cmpu64)
    (lawfulCmpOn_then (lawfulCmpOn_of_proj (f := Version.minor) lawfulCmp_cmpu64)
      (lawfulCmpOn_then (lawfulCmpOn_of_proj (f := Version.patch) lawfulCmp_cmpu64)
        (lawfulCmpOn_then
          (lawfulCmpOn_of_proj (f := Version.pre)
            (lawfulCmp_cmpList lawfulCmp_cmpIdentifier))
          (lawfulCmpOn_of_proj (f := Version.build)
            (lawfulCmp_cmpList lawfulCmp_cmpIdentifier)))))

theorem versionFieldsEq_iff (a b : Version) : versionFieldsEq a b ↔ a = b := by
  cases a
  cases b
  simp [versionFieldsEq, Version.mk.injEq, and_assoc]

theorem cmpVersion_eq_iff (a b : Version) : cmpVersion a b = .eq ↔ a = b := by
  rw [lawfulCmpOn_cmpVersion.eq_iff, versionFieldsEq_iff]

theorem cmpVersion_symm (a b : Version) : cmpVersion a b = (cmpVersion b a).swap :=
  lawfulCmpOn_cmpVersion.symm a b

theorem cmpVersion_lt_trans (a b c : Version) (hab : cmpVersion a b = .lt)
    (hbc : cmpVersion b c = .lt) : cmpVersion a c = .lt :=
  lawfulCmpOn_cmpVersion.lt_trans a b c hab hbc

theorem cmpList_strict_prefix {cmp : α → α → Ordering} (h : LawfulCmp cmp) :
    ∀ (l : List α) (x : α) (xs : List α), cmpList cmp l (l ++ x :: xs) = .lt
  | [], _, _ => rfl
  | a :: l, x, xs => by
    simp only [List.cons_append, cmpList, (h.eq_iff a a).mpr rfl]
    exact cmpList_strict_prefix h l x xs

/-! ### UTF-8 boundary lemmas -/

/-- Well-formed UTF-8 byte sequences (frame structure per RFC 3629): an ASCII
byte under 0x80, or a 2-, 3- or 4-byte sequence whose continuation bytes lie
in 0x80..0xBF.  Only the frame boundaries matter here: every non-initial byte
of a multi-byte character is at least 0x80. -/
inductive ValidUtf8 : List Nat → Prop
  | nil : ValidUtf8 []
  | ascii (b : Nat) (rest : List Nat) : b < 128 → ValidUtf8 rest →
      ValidUtf8 (b :: rest)
  | two (b1 b2 : Nat) (rest : List Nat) :
      194 ≤ b1 → b1 ≤ 223 → 128 ≤ b2 → b2 ≤ 191 → ValidUtf8 rest →
      ValidUtf8 (b1 :: b2 :: rest)
  | three (b1 b2 b3 : Nat) (rest : List Nat) :
      224 ≤ b1 → b1 ≤ 239 → 128 ≤ b2 → b2 ≤ 191 → 128 ≤ b3 → b3 ≤ 191 →
      ValidUtf8 rest → ValidUtf8 (b1 :: b2 :: b3 :: rest)
  | four (b1 b2 b3 b4 : Nat) (rest : List Nat) :
      240 ≤ b1 → b1 ≤ 244 → 128 ≤ b2 → b2 ≤ 191 → 128 ≤ b3 → b3 ≤ 191 →
      128 ≤ b4 → b4 ≤ 191 → ValidUtf8 rest →
      ValidUtf8 (b1 :: b2 :: b3 :: b4 :: rest)

theorem validUtf8_cons_ascii {b : Nat} {rest : List Nat} (hb : b < 128)
    (h : ValidUtf8 (b :: rest)) : ValidUtf8 rest := by
  cases h
  · assumption
  · exfalso; omega
  · exfalso; omega
  · exfalso; omega

theorem validUtf8_drop_ascii : ∀ (pfx rem : List Nat), (∀ b ∈ pfx, b < 128) →
    ValidUtf8 (pfx ++ rem) → ValidUtf8 rem
  | [], _, _, h => h
  | b :: pfx, rem, hp, h =>
    validUtf8_drop_ascii pfx rem (fun x hx => hp x (List.mem_cons_of_mem _ hx))
      (validUtf8_cons_ascii (hp b (List.mem_cons_self _ _)) h)

theorem validUtf8_append_ascii_aux (ys : List Nat) (hys : ∀ b ∈ ys, b < 128) :
    ∀ (l : List Nat), ValidUtf8 l → ∀ xs, xs ++ ys = l → ValidUtf8 xs := by
  intro l h
  induction h with
  | nil =>
    intro xs heq
    rw [List.append_eq_nil] at heq
    rw [heq.1]
    exact .nil
  | ascii b rest hb hrest ih =>
    intro xs heq
    cases xs with
    | nil => exact .nil
    | cons x xs' =>
      rw [List.cons_append] at heq
      injection heq with e1 e2
      subst e1
      exact .ascii _ _ hb (ih xs' e2)
  | two b1 b2 rest h1 h2 h3 h4 hrest ih =>
    intro xs heq
    cases xs with
    | nil => exact .nil
    | cons x1 xs' =>
      rw [List.cons_append] at heq
      injection heq with e1 e2
      subst e1
      cases xs' with
      | nil =>
        exfalso
        rw [List.nil_append] at e2
        have hmem : b2 ∈ ys := by rw [e2]; exact List.mem_cons_self _ _
        have := hys _ hmem
        omega
      | cons x2 xs'' =>
        rw [List.cons_append] at e2
        injection e2 with e3 e4
        subst e3
        exact .two _ _ _ h1 h2 h3 h4 (ih xs'' e4)
  | three b1 b2 b3 rest h1 h2 h3 h4 h5 h6 hrest ih =>
    intro xs heq
    cases xs with
    | nil => exact .nil
    | cons x1 xs' =>
      rw [List.cons_append] at heq
      injection heq with e1 e2
      subst e1
      cases xs' with
      | nil =>
        exfalso
        rw [List.nil_append] at e2
        have hmem : b2 ∈ ys := by rw [e2]; exact List.mem_cons_self _ _
        have := hys _ hmem
        omega
      | cons x2 xs'' =>
        rw [List.cons_append] at e2
        injection e2 with e3 e4
        subst e3
        cases xs'' with
        | nil =>
          exfalso
          rw [List.nil_append] at e4
          have hmem : b3 ∈ ys := by rw [e4]; exact List.mem_cons_self _ _
          have := hys _ hmem
          omega
        | cons x3 xs3 =>
          rw [List.cons_append] at e4
          injection e4 with e5 e6
          subst e5
          exact .three _ _ _ _ h1 h2 h3 h4 h5 h6 (ih xs3 e6)
  | four b1 b2 b3 b4 rest h1 h2 h3 h4 h5 h6 h7 h8 hrest ih =>
    intro xs heq
    cases xs with
    | nil => exact .nil
    | cons x1 xs' =>
      rw [List.cons_append] at heq
      injection heq with e1 e2
      subst e1
      cases xs' with
      | nil =>
        exfalso
        rw [List.nil_append] at e2
        have hmem : b2 ∈ ys := by rw [e2]; exact List.mem_cons_self _ _
        have := hys _ hmem
        omega
      | cons x2 xs'' =>
        rw [List.cons_append] at e2
        injection e2 with e3 e4
        subst e3
        cases xs'' with
        | nil =>
          exfalso
          rw [List.nil_append] at e4
          have hmem : b3 ∈ ys := by rw [e4]; exact List.mem_cons_self _ _
          have := hys _ hmem
          omega
        | cons x3 xs3 =>
          rw [List.cons_append] at e4
          injection e4 with e5 e6
          subst e5
          cases xs3 with
          | nil =>
            exfalso
            rw [List.nil_append] at e6
            have hmem : b4 ∈ ys := by rw [e6]; exact List.mem_cons_self _ _
            have := hys _ hmem
            omega
          | cons x4 xs4 =>
            rw [List.cons_append] at e6
            injection e6 with e7 e8
            subst e7
            exact .four _ _ _ _ _ h1 h2 h3 h4 h5 h6 h7 h8 (ih xs4 e8)

theorem validUtf8_append_ascii {xs ys : List Nat} (h : ValidUtf8 (xs ++ ys))
    (hys : ∀ b ∈ ys, b < 128) : ValidUtf8 xs :=
  validUtf8_append_ascii_aux ys hys (xs ++ ys) h xs rfl

theorem not_ws_of_ge {b : Nat} (h : 128 ≤ b) : isWhitespaceByte b = false := by
  simp only [isWhitespaceByte, Bool.or_eq_false_iff, beq_eq_false_iff_ne, ne_eq,
    Bool.and_eq_false_iff, decide_eq_false_iff_not]
  omega

theorem validUtf8_dropWhile_ws {s : List Nat} (h : ValidUtf8 s) :
    ValidUtf8 (s.dropWhile isWhitespaceByte) := by
  induction h with
  | nil => exact .nil
  | ascii b rest hb hrest ih =>
    rw [List.dropWhile_cons]
    split_ifs with hw
    · exact ih
    · exact .ascii b rest hb hrest
  | two b1 b2 rest h1 h2 h3 h4 hrest =>
    rw [List.dropWhile_cons, not_ws_of_ge (by omega)]
    simp only [Bool.false_eq_true, if_false]
    exact .two _ _ _ h1 h2 h3 h4 hrest
  | three b1 b2 b3 rest h1 h2 h3 h4 h5 h6 hrest =>
    rw [List.dropWhile_cons, not_ws_of_ge (by omega)]
    simp only [Bool.false_eq_true, if_false]
    exact .three _ _ _ _ h1 h2 h3 h4 h5 h6 hrest
  | four b1 b2 b3 b4 rest h1 h2 h3 h4 h5 h6 h7 h8 hrest =>
    rw [List.dropWhile_cons, not_ws_of_ge (by omega)]
    simp only [Bool.false_eq_true, if_false]
    exact .four _ _ _ _ _ h1 h2 h3 h4 h5 h6 h7 h8 hrest

theorem dropWhile_rev_decomp (p : α → Bool) (u : List α) :
    u = (u.reverse.dropWhile p).reverse ++ (u.reverse.takeWhile p).reverse := by
  calc u = u.reverse.reverse := (List.reverse_reverse u).symm
    _ = (u.reverse.takeWhile p ++ u.reverse.dropWhile p).reverse := by
        rw [List.takeWhile_append_dropWhile]
    _ = (u.reverse.dropWhile p).reverse ++ (u.reverse.takeWhile p).reverse :=
        List.reverse_append _ _

theorem validUtf8_rustTrim {s : List Nat} (h : ValidUtf8 s) :
    ValidUtf8 (rustTrim s) := by
  have h1 : ValidUtf8 (s.dropWhile isWhitespaceByte) := validUtf8_dropWhile_ws h
  have hdecomp := dropWhile_rev_decomp isWhitespaceByte (s.dropWhile isWhitespaceByte)
  rw [hdecomp] at h1
  refine validUtf8_append_ascii h1 ?_
  intro b hb
  rw [List.mem_reverse] at hb
  have hw := List.mem_takeWhile_imp hb
  simp only [isWhitespaceByte, Bool.or_eq_true, beq_iff_eq, Bool.and_eq_true,
    decide_eq_true_eq] at hw
  omega

/-! ### Helpers for the leading-zero and overflow claims -/

theorem numeric_identifier_leading_zero {s : List Nat}
    (hlen : 1 < (s.takeWhile isDigitByte).length) (hhead : s.head? = some 48) :
    numeric_identifier s = none := by
  have hne : s.takeWhile isDigitByte ≠ [] := by
    intro he
    rw [he] at hlen
    simp at hlen
  have hrun_head : (s.takeWhile isDigitByte).head? = some 48 := by
    cases s with
    | nil => simp at hhead
    | cons b t =>
      rw [List.head?_cons] at hhead
      have hb := Option.some.inj hhead
      subst hb
      rw [List.takeWhile_cons, show isDigitByte 48 = true from rfl]
      simp
  simp only [numeric_identifier]
  rw [if_neg hne, if_pos ⟨hlen, hrun_head⟩]

theorem parse_id_overflow {s : List Nat}
    (hne : s.takeWhile isAlphanumByte ≠ [])
    (hdig : ∀ b ∈ s.takeWhile isAlphanumByte, isDigitByte b = true)
    (hover : 2 ^ 64 ≤ digitsVal (s.takeWhile isAlphanumByte)) :
    parse_id s = .ok (.AlphaNumeric (s.takeWhile isAlphanumByte),
      (s.takeWhile isAlphanumByte).length) := by
  have hrun_self : (s.takeWhile isAlphanumByte).takeWhile isDigitByte
      = s.takeWhile isAlphanumByte := takeWhile_eq_self_of_all _ _ hdig
  have hnum : numeric_identifier (s.takeWhile isAlphanumByte) = none := by
    simp only [numeric_identifier, hrun_self]
    rw [if_neg hne]
    by_cases hz : 1 < (s.takeWhile isAlphanumByte).length
        ∧ (s.takeWhile isAlphanumByte).head? = some 48
    · rw [if_pos hz]
    · rw [if_neg hz, if_pos hover]
  simp only [parse_id, hnum]
  rw [if_neg hne]

/-- All-ASCII byte lists are valid UTF-8. -/
theorem validUtf8_of_ascii : ∀ l : List Nat, (∀ b ∈ l, b < 128) → ValidUtf8 l
  | [], _ => .nil
  | b :: l, h => .ascii b l (h b (List.mem_cons_self _ _))
      (validUtf8_of_ascii l fun x hx => h x (List.mem_cons_of_mem _ hx))

/-! ### Claim theorems -/

/-- C1: round-trip law — for every string `s` that `parse` accepts with result
`v`, the `Display` output of `v` is again accepted by `parse`, and re-parsing
it returns a `Version` equal to `v`. -/
theorem C1_roundtrip (s : List Nat) (v : Version) (h : parse s = .ok v) :
    parse (fmtVersion v) = .ok v := by
  have h1 : fmtVersion v = rustTrim s := parse_ok_fmt h
  rw [h1, parse_rustTrim]
  exact h

theorem C1_roundtrip_witness :
    parse (fmtVersion ⟨1, 2, 3, [], []⟩) = .ok ⟨1, 2, 3, [], []⟩ :=
  C1_roundtrip (ascii "1.2.3") ⟨1, 2, 3, [], []⟩ rfl

/-- C2: the derived precedence ordering on `Version` is a total order given by
lexicographic comparison of `(major, minor, patch, pre, build)`: equality of
the comparison coincides with structural equality of all five fields
(including `build`), the comparison is antisymmetric under swapping and
transitive, sequences compare element-by-element with a strict prefix sorting
before its extension (so an empty `pre` sorts before any non-empty `pre` of
the same numeric triple), and `Numeric` sorts before `AlphaNumeric` regardless
of payload while same-variant identifiers compare by value or byte-wise string
order. -/
theorem C2_precedence_order :
    (∀ a b : Version, cmpVersion a b = .eq ↔ a = b)
    ∧ (∀ a b : Version, cmpVersion a b = (cmpVersion b a).swap)
    ∧ (∀ a b c : Version, cmpVersion a b = .lt → cmpVersion b c = .lt →
        cmpVersion a c = .lt)
    ∧ (∀ a b : Version, cmpVersion a b
        = (cmpu64 a.major b.major).then ((cmpu64 a.minor b.minor).then
          ((cmpu64 a.patch b.patch).then ((cmpList cmpIdentifier a.pre b.pre).then
            (cmpList cmpIdentifier a.build b.build)))))
    ∧ (∀ (l : List Identifier) (x : Identifier) (xs : List Identifier),
        cmpList cmpIdentifier l (l ++ x :: xs) = .lt)
    ∧ (∀ a b : Version, a.major = b.major → a.minor = b.minor →
        a.patch = b.patch → a.pre = [] → b.pre ≠ [] → cmpVersion a b = .lt)
    ∧ (∀ (n : Nat) (p : List Nat), cmpIdentifier (.Numeric n) (.AlphaNumeric p) = .lt)
    ∧ (∀ n m : Nat, cmpIdentifier (.Numeric n) (.Numeric m) = cmpu64 n m)
    ∧ (∀ p q : List Nat, cmpIdentifier (.AlphaNumeric p) (.AlphaNumeric q)
        = cmpList cmpu64 p q) := by
  refine ⟨cmpVersion_eq_iff, cmpVersion_symm, cmpVersion_lt_trans, fun a b => rfl,
    cmpList_strict_prefix lawfulCmp_cmpIdentifier, ?_, fun n p => rfl,
    fun n m => rfl, fun p q => rfl⟩
  intro a b h1 h2 h3 h4 h5
  obtain ⟨x, xs, hb⟩ : ∃ x xs, b.pre = x :: xs := by
    cases hbp : b.pre with
    | nil => exact absurd hbp h5
    | cons x xs => exact ⟨x, xs, rfl⟩
  have e1 : cmpu64 a.major b.major = .eq := (lawfulCmp_cmpu64.eq_iff _ _).mpr h1
  have e2 : cmpu64 a.minor b.minor = .eq := (lawfulCmp_cmpu64.eq_iff _ _).mpr h2
  have e3 : cmpu64 a.patch b.patch = .eq := (lawfulCmp_cmpu64.eq_iff _ _).mpr h3
  show (cmpu64 a.major b.major).then ((cmpu64 a.minor b.minor).then
    ((cmpu64 a.patch b.patch).then ((cmpList cmpIdentifier a.pre b.pre).then
      (cmpList cmpIdentifier a.build b.build)))) = .lt
  rw [e1, e2, e3, h4, hb]
  rfl

theorem C2_precedence_order_witness :
    cmpVersion ⟨1, 0, 0, [], []⟩ ⟨1, 0, 0, [.Numeric 1], []⟩ = .lt :=
  C2_precedence_order.2.2.2.2.2.1 ⟨1, 0, 0, [], []⟩ ⟨1, 0, 0, [.Numeric 1], []⟩
    rfl rfl rfl rfl (by simp)

/-- C3: overflow asymmetry — a major/minor/patch digit run overflowing 64 bits
is a parse error, while an all-digit metadata token overflowing 64 bits is
reclassified as `AlphaNumeric` preserving the digit text verbatim; in
particular the two quoted inputs fail and succeed as stated. -/
theorem C3_overflow_asymmetry :
    parse (ascii "98765432109876543210.0.0") = .error .majorIdentifier
    ∧ parse (ascii "0.4.0-beta.1+98765432109876543210")
      = .ok ⟨0, 4, 0, [.AlphaNumeric (ascii "beta"), .Numeric 1],
        [.AlphaNumeric (ascii "98765432109876543210")]⟩
    ∧ (∀ s : List Nat, s.takeWhile isAlphanumByte ≠ [] →
        (∀ b ∈ s.takeWhile isAlphanumByte, isDigitByte b = true) →
        2 ^ 64 ≤ digitsVal (s.takeWhile isAlphanumByte) →
        parse_id s = .ok (.AlphaNumeric (s.takeWhile isAlphanumByte),
          (s.takeWhile isAlphanumByte).length)) :=
  ⟨rfl, rfl, fun _ => parse_id_overflow⟩

theorem C3_overflow_asymmetry_witness :
    parse_id (ascii "98765432109876543210") = .ok
      (.AlphaNumeric ((ascii "98765432109876543210").takeWhile isAlphanumByte),
        ((ascii "98765432109876543210").takeWhile isAlphanumByte).length) :=
  C3_overflow_asymmetry.2.2 (ascii "98765432109876543210") (by decide) (by decide)
    (by decide)

/-- C4: leading-zero rule on the numeric triple — the three quoted inputs each
fail, and in general `numeric_identifier` (used for major, minor and patch)
never accepts a digit run of length greater than one whose first byte is
`'0'`. -/
theorem C4_leading_zero :
    parse (ascii "01.0.0") = .error .majorIdentifier
    ∧ parse (ascii "0.01.0") = .error .minorIdentifier
    ∧ parse (ascii "0.0.01") = .error .patchIdentifier
    ∧ (∀ s : List Nat, 1 < (s.takeWhile isDigitByte).length → s.head? = some 48 →
        numeric_identifier s = none) :=
  ⟨rfl, rfl, rfl, fun _ => numeric_identifier_leading_zero⟩

theorem C4_leading_zero_witness : numeric_identifier (ascii "01") = none :=
  C4_leading_zero.2.2.2 (ascii "01") (by decide) (by decide)

/-- C5: whitespace trimming — `parse` gives the same result on a string and on
its trimmed form for every input, and `parse "  1.2.3  "` succeeds with
major 1, minor 2, patch 3 and empty `pre` and `build`. -/
theorem C5_trim :
    (∀ s : List Nat, parse s = parse (rustTrim s))
    ∧ parse (ascii "  1.2.3  ") = .ok ⟨1, 2, 3, [], []⟩ :=
  ⟨fun s => (parse_rustTrim s).symm, rfl⟩

/-- C6: empty metadata segment — `parse "1.2.3-"` is an error; whenever the
identifier list is entered (right after a marker, and again after each dot)
and no identifier character follows, the result is the empty-segment error;
a wholly absent marker instead gives an empty identifier sequence with zero
bytes consumed, letting the parse succeed. -/
theorem C6_empty_metadata :
    parse (ascii "1.2.3-") = .error .emptyMetaSegment
    ∧ (∀ (fuel : Nat) (s : List Nat), s.takeWhile isAlphanumByte = [] →
        parse_meta_w (fuel + 1) s = .error .emptyMetaSegment)
    ∧ (∀ (marker : Nat) (rest : List Nat), rest.takeWhile isAlphanumByte = [] →
        parse_optional_meta (marker :: rest) marker = .error .emptyMetaSegment)
    ∧ (∀ (s : List Nat) (marker : Nat), litByte marker s = none →
        parse_optional_meta s marker = .ok ([], 0)) :=
  ⟨rfl, parse_meta_w_of_empty, fun _ _ => parse_optional_meta_empty_after_marker,
    fun _ _ => parse_optional_meta_absent⟩

theorem C6_empty_metadata_witness :
    parse_optional_meta (ascii "-+x") 45 = .error .emptyMetaSegment :=
  C6_empty_metadata.2.2.1 45 (ascii "+x") (by decide)

/-- C7: trailing unconsumed input — whenever `parse` fails with the
extra-junk error, the reported remainder is a non-empty suffix of the trimmed
input (everything before it was consumed), and `parse "1.2.3 a.b.c"` fails
with remainder `" a.b.c"`. -/
theorem C7_trailing_junk :
    (∀ s rem : List Nat, parse s = .error (.extraJunk rem) →
      rem ≠ [] ∧ ∃ pfx, rustTrim s = pfx ++ rem)
    ∧ parse (ascii "1.2.3 a.b.c") = .error (.extraJunk (ascii " a.b.c")) := by
  refine ⟨?_, rfl⟩
  intro s rem h
  obtain ⟨i, hlt, hrem, hne, -⟩ := parseTrimmed_junk h
  refine ⟨hne, (rustTrim s).take i, ?_⟩
  rw [hrem]
  exact (List.take_append_drop i _).symm

theorem C7_trailing_junk_witness :
    ascii " a.b.c" ≠ [] ∧ ∃ pfx, rustTrim (ascii "1.2.3 a.b.c") = pfx ++ ascii " a.b.c" :=
  C7_trailing_junk.1 (ascii "1.2.3 a.b.c") (ascii " a.b.c") rfl

/-- C8: alphanumeric payload invariant — in every `Version` returned by a
successful `parse`, each `AlphaNumeric` identifier of `pre` or `build` has a
non-empty payload drawn entirely from the character set `[0-9A-Za-z-]`. -/
theorem C8_alphanumeric_invariant (s : List Nat) (v : Version)
    (h : parse s = .ok v) :
    ∀ p, Identifier.AlphaNumeric p ∈ v.pre ++ v.build →
      p ≠ [] ∧ ∀ b ∈ p, isAlphanumByte b = true := by
  intro p hp
  exact (parseTrimmed_ok h).2.2 _ hp

theorem C8_alphanumeric_invariant_witness :
    ascii "a1" ≠ [] ∧ ∀ b ∈ ascii "a1", isAlphanumByte b = true :=
  C8_alphanumeric_invariant (ascii "1.2.3-a1")
    ⟨1, 2, 3, [.AlphaNumeric (ascii "a1")], []⟩ rfl (ascii "a1") (by decide)

/-- C9: totality and panic freedom — `parse` always returns a value (`ok` or
`error`); in the extra-junk branch every byte consumed before the remainder is
ASCII, so the split lies on a UTF-8 character boundary: for valid UTF-8 input
the reported remainder is itself valid UTF-8, which is exactly why the
`from_utf8(...).unwrap()` in version.rs cannot fail. -/
theorem C9_no_panic :
    (∀ s : List Nat, (∃ v, parse s = .ok v) ∨ ∃ e, parse s = .error e)
    ∧ (∀ s rem : List Nat, parse s = .error (.extraJunk rem) →
        ∃ pfx, rustTrim s = pfx ++ rem ∧ ∀ b ∈ pfx, b < 128)
    ∧ (∀ s rem : List Nat, ValidUtf8 s → parse s = .error (.extraJunk rem) →
        ValidUtf8 rem) := by
  refine ⟨?_, ?_, ?_⟩
  · intro s
    cases h : parse s with
    | ok v => exact .inl ⟨v, rfl⟩
    | error e => exact .inr ⟨e, rfl⟩
  · intro s rem h
    obtain ⟨i, hlt, hrem, -, hascii⟩ := parseTrimmed_junk h
    refine ⟨(rustTrim s).take i, ?_, hascii⟩
    rw [hrem]
    exact (List.take_append_drop i _).symm
  · intro s rem hval h
    obtain ⟨i, hlt, hrem, -, hascii⟩ := parseTrimmed_junk h
    have htrim : ValidUtf8 (rustTrim s) := validUtf8_rustTrim hval
    have hsplitv : ValidUtf8 ((rustTrim s).take i ++ (rustTrim s).drop i) := by
      rw [List.take_append_drop]
      exact htrim
    rw [hrem]
    exact validUtf8_drop_ascii _ _ hascii hsplitv

theorem C9_no_panic_witness : ValidUtf8 (ascii " x") :=
  C9_no_panic.2.2 (ascii "1.2.3 x") (ascii " x")
    (validUtf8_of_ascii (ascii "1.2.3 x") (by decide)) rfl

/-- C10: exact formatting round-trip — for every input on which `parse`
succeeds, the `Display` output of the resulting `Version` is byte-for-byte
the trimmed input. -/
theorem C10_exact_roundtrip (s : List Nat) (v : Version) (h : parse s = .ok v) :
    fmtVersion v = rustTrim s :=
  parse_ok_fmt h

theorem C10_exact_roundtrip_witness :
    fmtVersion ⟨1, 2, 3, [.Numeric 4], [.AlphaNumeric (ascii "b5")]⟩
      = rustTrim (ascii " 1.2.3-4+b5 ") :=
  C10_exact_roundtrip (ascii " 1.2.3-4+b5 ")
    ⟨1, 2, 3, [.Numeric 4], [.AlphaNumeric (ascii "b5")]⟩ rfl

/-! ### Test vectors from the repository's own test module -/

theorem test_ascii_bytes : ascii "1.2.3" = [49, 46, 50, 46, 51] := rfl

theorem test_parse_basic_version : parse (ascii "1.2.3") = .ok ⟨1, 2, 3, [], []⟩ := rfl

theorem test_parse_trims_input :
    parse (ascii "  1.2.3  ") = .ok ⟨1, 2, 3, [], []⟩ := rfl

theorem test_parse_empty : parse (ascii "") = .error .majorIdentifier := rfl

theorem test_parse_blank : parse (ascii "  ") = .error .majorIdentifier := rfl

theorem test_parse_no_minor_patch : parse (ascii "1") = .error .expectedDot := rfl

theorem test_parse_no_patch : parse (ascii "1.2") = .error .expectedDot := rfl

theorem test_parse_letters : parse (ascii "a.b.c") = .error .majorIdentifier := rfl

theorem test_parse_complex_metadata :
    parse (ascii "1.2.3-1.alpha1.9+build5.7.3aedf  ") =
      .ok ⟨1, 2, 3, [.Numeric 1, .AlphaNumeric (ascii "alpha1"), .Numeric 9],
        [.AlphaNumeric (ascii "build5"), .Numeric 7, .AlphaNumeric (ascii "3aedf")]⟩ :=
  rfl

theorem test_parse_leading_zero_build :
    parse (ascii "0.4.0-beta.1+0851523") =
      .ok ⟨0, 4, 0, [.AlphaNumeric (ascii "beta"), .Numeric 1],
        [.AlphaNumeric (ascii "0851523")]⟩ := rfl

theorem test_parse_regression_wip :
    parse (ascii "0.0.0-WIP") = .ok ⟨0, 0, 0, [.AlphaNumeric (ascii "WIP")], []⟩ := rfl

theorem test_parse_minor_overflow :
    parse (ascii "0.98765432109876543210.0") = .error .minorIdentifier := rfl

theorem test_parse_patch_overflow :
    parse (ascii "0.0.98765432109876543210") = .error .patchIdentifier := rfl

theorem test_fmt_version :
    fmtVersion ⟨1, 2, 3, [.Numeric 1, .AlphaNumeric (ascii "alpha1")], []⟩ =
      ascii "1.2.3-1.alpha1" := rfl

end Semver
